import Mathlib

/-!
Verification of the fixed-point quantization and hex/COE serialization kernel
of the shape-detector FPGA tooling (`convert_weights_to_coe.py`,
`train_network.py`, `generate_test_images.py`, `convert_images_to_hex.py`).

Finite float64 values are modelled as exact rationals: every arithmetic step
the quantizer performs on a clamped value (comparison with a dyadic constant,
multiplication by `2 ^ 15`, truncation to an integer) is exact in IEEE float64
over the ranges that occur, so the rational semantics coincides with the
floating-point one there.  Non-finite inputs (infinities, NaN) are modelled
separately by the type `F64`.
-/

/-- Truncation of a rational toward zero: the semantics of Python `int()`
applied to a finite float. -/
def truncQ (x : ℚ) : ℤ := if 0 ≤ x then ⌊x⌋ else ⌈x⌉

/-- Embeds `float_to_fixed_point` from `convert_weights_to_coe.py` on finite
inputs: clamp to `[-1, 1 - 2^-frac_bits]`, scale by `2^frac_bits` and truncate
via `int(...)`, then add `2^(int_bits+frac_bits)` to negative results
(two's complement). -/
def float_to_fixed_point (val : ℚ) (int_bits frac_bits : ℕ) : ℤ :=
  let v : ℚ := max (min val (1 - 1 / 2 ^ frac_bits)) (-1)
  let scaled_val : ℤ := truncQ (v * 2 ^ frac_bits)
  if scaled_val < 0 then 2 ^ (int_bits + frac_bits) + scaled_val else scaled_val

/-- IEEE float64 values as seen by the quantizer: finite values as exact
rationals, the two infinities, and NaN. -/
inductive F64 where
  | fin (q : ℚ)
  | posInf
  | negInf
  | nan
deriving DecidableEq

/-- IEEE `<` on float64 values: every comparison involving NaN is false. -/
def F64.lt : F64 → F64 → Bool
  | .fin p, .fin q => decide (p < q)
  | .fin _, .posInf => true
  | .negInf, .fin _ => true
  | .negInf, .posInf => true
  | _, _ => false

/-- Python builtin `min(a, b)`: returns `b` exactly when `b < a`. -/
def pymin (a b : F64) : F64 := if F64.lt b a then b else a

/-- Python builtin `max(a, b)`: returns `b` exactly when `a < b`. -/
def pymax (a b : F64) : F64 := if F64.lt a b then b else a

/-- Multiplication of a float64 value by `2 ^ k` (a positive power of two),
exact on finite values in the ranges used here; infinities and NaN are
absorbing. -/
def F64.mulPow2 : F64 → ℕ → F64
  | .fin q, k => .fin (q * 2 ^ k)
  | .posInf, _ => .posInf
  | .negInf, _ => .negInf
  | .nan, _ => .nan

/-- Python `int()` on a float: truncates a finite value toward zero; raises
`ValueError` on NaN and `OverflowError` on infinities, modelled as `none`. -/
def pyInt : F64 → Option ℤ
  | .fin q => some (truncQ q)
  | _ => none

/-- `float_to_fixed_point` over the full float64 domain, including
non-finite inputs; `none` models an exception escaping the function. -/
def float_to_fixed_pointF (val : F64) (int_bits frac_bits : ℕ) : Option ℤ :=
  let v := pymax (pymin val (.fin (1 - 1 / 2 ^ frac_bits))) (.fin (-1))
  match pyInt (v.mulPow2 frac_bits) with
  | none => none
  | some scaled_val =>
      some (if scaled_val < 0 then 2 ^ (int_bits + frac_bits) + scaled_val
            else scaled_val)

/-- The exact float64 value of the literal `0.99997`, the clip upper bound
used by `save_weights_for_fpga` in `train_network.py`. -/
def clipUpper : ℚ := 4503464519381675 / 4503599627370496

/-- Round half to even: the semantics of `np.round` on exact values. -/
def roundHalfEven (x : ℚ) : ℤ :=
  if x - ⌊x⌋ < 1 / 2 then ⌊x⌋
  else if 1 / 2 < x - ⌊x⌋ then ⌊x⌋ + 1
  else if 2 ∣ ⌊x⌋ then ⌊x⌋ else ⌊x⌋ + 1

/-- Embeds the per-value quantization of `save_weights_for_fpga` in
`train_network.py`: `np.clip(w, -1.0, 0.99997)`, `np.round(w_fixed * 32768)`,
add `65536` to negative results, and the `& 0xFFFF` mask applied at
formatting time.  Returns the 16-bit word that is written. -/
def save_weights_word (w : ℚ) : ℤ :=
  let w_fixed := max (min w clipUpper) (-1)
  let w_int := roundHalfEven (w_fixed * 32768)
  let weight := if w_int < 0 then w_int + 65536 else w_int
  weight % 65536

/-- The lowercase hexadecimal digit characters produced by Python
`format(·, 'x')`. -/
def hexDigitChar (n : ℕ) : Char :=
  if n < 10 then Char.ofNat (48 + n) else Char.ofNat (87 + n)

/-- Embeds `format(x & 0xFFFF, '04x')`: mask to 16 bits, then print four
zero-padded lowercase hex digits. -/
def hex4 (x : ℤ) : String :=
  let m := (x % 65536).toNat
  String.mk [hexDigitChar (m / 4096 % 16), hexDigitChar (m / 256 % 16),
             hexDigitChar (m / 16 % 16), hexDigitChar (m % 16)]

/-- Embeds `f"{pixel:02x}"` for an 8-bit pixel value: two zero-padded
lowercase hex digits. -/
def hex2 (p : ℕ) : String :=
  String.mk [hexDigitChar (p / 16 % 16), hexDigitChar (p % 16)]

/-- The content written by a sequence of `f.write` calls: the concatenation
of the written strings in order. -/
def strJoin : List String → String
  | [] => ""
  | s :: rest => s ++ strJoin rest

/-- Embeds `generate_coe_file` from `convert_weights_to_coe.py` (the byte
content written to the file): two header lines, then for each indexed weight
a line `"%04x,\n"`, except the last weight, which gets `"%04x;\n"`. -/
def generate_coe_file (weights_flat : List ℚ) (int_bits frac_bits : ℕ) :
    String :=
  "memory_initialization_radix=16;\n" ++ "memory_initialization_vector=\n" ++
  strJoin (weights_flat.enum.map (fun p =>
    let hex_val := hex4 (float_to_fixed_point p.2 int_bits frac_bits)
    if p.1 < weights_flat.length - 1 then hex_val ++ ",\n"
    else hex_val ++ ";\n"))

/-- Embeds `save_as_hex` from `generate_test_images.py`: for each row of the
image, for each pixel, write `f"{pixel:02x}\n"`. -/
def save_as_hex (img : List (List ℕ)) : String :=
  strJoin (img.map (fun row =>
    strJoin (row.map (fun pixel => hex2 pixel ++ "\n"))))

/-- Embeds the write loop of `convert_image_to_hex` from
`convert_images_to_hex.py`: for `y` in `range h`, for `x` in `range w`,
write `f"{img[y, x]:02x}\n"`. -/
def convert_image_to_hex (img : List (List ℕ)) (h w : ℕ) : String :=
  strJoin ((List.range h).map (fun y =>
    strJoin ((List.range w).map (fun x =>
      hex2 ((img.getD y []).getD x 0) ++ "\n"))))

/-- The hex token that `generate_coe_file` emits for one weight. -/
def coeToken (w : ℚ) : String := hex4 (float_to_fixed_point w 1 15)

/-- The Q1.15 decoding named by the spec: interpret a 16-bit word as a
two's-complement integer and divide by `2 ^ 15`. -/
def decodeQ15 (w : ℤ) : ℚ :=
  if 2 ^ 15 ≤ w then ((w : ℚ) - 2 ^ 16) / 2 ^ 15 else (w : ℚ) / 2 ^ 15

/-- A lowercase hexadecimal digit character (`0`-`9` or `a`-`f`). -/
def isHexLower (c : Char) : Bool :=
  ('0' ≤ c && c ≤ '9') || ('a' ≤ c && c ≤ 'f')

/-- Drop the characters of a line through its first newline: used to strip
one header line from an artifact. -/
def dropLine : List Char → List Char
  | [] => []
  | c :: rest => if c = '\n' then rest else dropLine rest

/-- Strip the trailing terminator of a COE body: an optional final newline,
then the `;`. -/
def stripTerm (cs : List Char) : List Char :=
  let cs1 := if cs.getLast? = some '\n' then cs.dropLast else cs
  if cs1.getLast? = some ';' then cs1.dropLast else cs1

/-- Split a character list on each occurrence of the two-character
separator `",\n"`. -/
def splitCommaNl : List Char → List (List Char)
  | [] => [[]]
  | [c] => [[c]]
  | c :: d :: rest =>
    if c = ',' ∧ d = '\n' then [] :: splitCommaNl rest
    else
      match splitCommaNl (d :: rest) with
      | [] => [[c]]
      | t :: ts => (c :: t) :: ts

/-- Split a character list on each newline. -/
def splitNl : List Char → List (List Char)
  | [] => [[]]
  | c :: rest =>
    if c = '\n' then [] :: splitNl rest
    else
      match splitNl rest with
      | [] => [[c]]
      | t :: ts => (c :: t) :: ts

/-- The COE parse described by the spec: drop the two header lines, strip
the trailing terminator, and split the remaining body on `",\n"`. -/
def coeParse (s : String) : List String :=
  (splitCommaNl (stripTerm (dropLine (dropLine s.data)))).map
    (fun cs => String.mk cs)

/-! ### Helper lemmas about truncation toward zero -/

lemma truncQ_abs_sub_le (x : ℚ) : |(truncQ x : ℚ) - x| ≤ 1 := by
  unfold truncQ
  split_ifs with h
  · rw [abs_le]
    constructor
    · have h1 : x - 1 < (⌊x⌋ : ℚ) := Int.sub_one_lt_floor x
      linarith
    · have h2 : (⌊x⌋ : ℚ) ≤ x := Int.floor_le x
      linarith
  · rw [abs_le]
    constructor
    · have h1 : x ≤ (⌈x⌉ : ℚ) := Int.le_ceil x
      linarith
    · have h2 : (⌈x⌉ : ℚ) < x + 1 := Int.ceil_lt_add_one x
      linarith

lemma truncQ_le_of_le {x : ℚ} {b : ℤ} (h : x ≤ (b : ℚ)) : truncQ x ≤ b := by
  unfold truncQ
  split_ifs with h0
  · exact Int.floor_le_iff.mpr (by linarith)
  · exact Int.ceil_le.mpr h

lemma le_truncQ_of_le {x : ℚ} {a : ℤ} (h : (a : ℚ) ≤ x) : a ≤ truncQ x := by
  unfold truncQ
  split_ifs with h0
  · exact Int.le_floor.mpr h
  · have h1 : x ≤ (⌈x⌉ : ℚ) := Int.le_ceil x
    exact_mod_cast le_trans h h1

lemma truncQ_eq_of_nonneg {x : ℚ} {n : ℤ} (h0 : 0 ≤ x) (h1 : (n : ℚ) ≤ x)
    (h2 : x < n + 1) : truncQ x = n := by
  unfold truncQ
  rw [if_pos h0]
  exact Int.floor_eq_iff.mpr ⟨h1, by linarith [show ((n:ℚ)+1 : ℚ) = ((n+1 : ℤ) : ℚ) by push_cast; ring]⟩

lemma truncQ_eq_of_neg {x : ℚ} {n : ℤ} (h0 : ¬ 0 ≤ x) (h1 : (n : ℚ) - 1 < x)
    (h2 : x ≤ n) : truncQ x = n := by
  unfold truncQ
  rw [if_neg h0]
  exact Int.ceil_eq_iff.mpr ⟨by linarith, h2⟩

/-- On in-range inputs the clamp of `float_to_fixed_point` is the identity. -/
lemma f2fp_in_range (v : ℚ) (h0 : -1 ≤ v) (h1 : v ≤ 1 - 1 / 2 ^ 15) :
    float_to_fixed_point v 1 15 =
      if truncQ (v * 2 ^ 15) < 0 then 65536 + truncQ (v * 2 ^ 15)
      else truncQ (v * 2 ^ 15) := by
  unfold float_to_fixed_point
  rw [min_eq_left h1, max_eq_left h0]
  norm_num

/-! ### C1-C4: quantizer properties -/

/-- C1: for every finite float64 value `v` in `[-1, 1 - 2^-15]`, quantizing
with `float_to_fixed_point` (default `int_bits = 1`, `frac_bits = 15`) and
decoding the 16-bit word as two's-complement Q1.15 recovers `v` to within
`2^-15` absolute error. -/
theorem quantize_roundtrip_error (v : ℚ) (h0 : -1 ≤ v)
    (h1 : v ≤ 1 - 1 / 2 ^ 15) :
    |decodeQ15 (float_to_fixed_point v 1 15) - v| ≤ 1 / 2 ^ 15 := by
  have hf := f2fp_in_range v h0 h1
  set s := truncQ (v * 2 ^ 15) with hs
  have hsl : -32768 ≤ s := le_truncQ_of_le (by push_cast; nlinarith)
  have hsu : s ≤ 32767 := truncQ_le_of_le (by push_cast; nlinarith)
  have habs : |(s : ℚ) - v * 2 ^ 15| ≤ 1 := truncQ_abs_sub_le _
  have hdec : decodeQ15 (float_to_fixed_point v 1 15) = (s : ℚ) / 2 ^ 15 := by
    rw [hf]
    by_cases hneg : s < 0
    · rw [if_pos hneg]
      unfold decodeQ15
      rw [if_pos (by norm_num; omega)]
      push_cast
      ring_nf
    · rw [if_neg hneg]
      unfold decodeQ15
      rw [if_neg (by norm_num; omega)]
  rw [hdec]
  have hrw : (s : ℚ) / 2 ^ 15 - v = ((s : ℚ) - v * 2 ^ 15) / 2 ^ 15 := by
    ring
  rw [hrw, abs_div, abs_of_pos (by norm_num : (0:ℚ) < 2 ^ 15)]
  exact div_le_div_of_nonneg_right habs (by norm_num) |>.trans_eq (by norm_num)

/-- C1 witness at `v = 1/2`. -/
theorem quantize_roundtrip_error_at_half :
    |decodeQ15 (float_to_fixed_point (1 / 2) 1 15) - 1 / 2| ≤ 1 / 2 ^ 15 :=
  quantize_roundtrip_error (1 / 2) (by norm_num) (by norm_num)

/-- C2: the three anchor inputs map to exactly the stated words:
`0.0 ↦ 0x0000`, `-1.0 ↦ 0x8000`, `1 - 2^-15 ↦ 0x7FFF`. -/
theorem quantize_anchor_values :
    float_to_fixed_point 0 1 15 = 0x0000
    ∧ float_to_fixed_point (-1) 1 15 = 0x8000
    ∧ float_to_fixed_point (1 - 1 / 2 ^ 15) 1 15 = 0x7FFF := by
  refine ⟨?_, ?_, ?_⟩
  · rw [f2fp_in_range 0 (by norm_num) (by norm_num)]
    rw [truncQ_eq_of_nonneg (n := 0) (by norm_num) (by norm_num) (by norm_num)]
    norm_num
  · rw [f2fp_in_range (-1) (by norm_num) (by norm_num)]
    rw [truncQ_eq_of_neg (n := -32768) (by norm_num) (by norm_num)
      (by norm_num)]
    norm_num
  · rw [f2fp_in_range (1 - 1 / 2 ^ 15) (by norm_num) (by norm_num)]
    rw [truncQ_eq_of_nonneg (n := 32767) (by norm_num) (by norm_num)
      (by norm_num)]
    norm_num

/-- C3: the quantizer saturates rather than wraps: every finite value above
`1 - 2^-15` quantizes like `1 - 2^-15`, every finite value below `-1`
quantizes like `-1`; out-of-range finite values are clamped, not rejected. -/
theorem quantize_saturation (v : ℚ) :
    (1 - 1 / 2 ^ 15 < v →
      float_to_fixed_point v 1 15 = float_to_fixed_point (1 - 1 / 2 ^ 15) 1 15)
    ∧ (v < -1 →
      float_to_fixed_point v 1 15 = float_to_fixed_point (-1) 1 15) := by
  constructor
  · intro h
    unfold float_to_fixed_point
    rw [min_eq_right h.le, min_self]
  · intro h
    unfold float_to_fixed_point
    rw [min_eq_left (show v ≤ 1 - 1 / 2 ^ 15 by linarith), max_eq_right h.le,
      min_eq_left (show (-1 : ℚ) ≤ 1 - 1 / 2 ^ 15 by norm_num), max_self]

/-- C3 witness at `v = 2` and `v = -3`. -/
theorem quantize_saturation_at_two :
    float_to_fixed_point 2 1 15 = float_to_fixed_point (1 - 1 / 2 ^ 15) 1 15
    ∧ float_to_fixed_point (-3) 1 15 = float_to_fixed_point (-1) 1 15 :=
  ⟨(quantize_saturation 2).1 (by norm_num),
   (quantize_saturation (-3)).2 (by norm_num)⟩

/-- C4: on every finite float64 input the full-domain model returns a value
(no exception) equal to the rational model, and the result lies in
`[0, 65535]`, so the 16-bit invariant holds even before the caller's
`& 0xFFFF` mask. -/
theorem quantize_total_and_in_range (v : ℚ) :
    float_to_fixed_pointF (.fin v) 1 15 = some (float_to_fixed_point v 1 15)
    ∧ 0 ≤ float_to_fixed_point v 1 15
    ∧ float_to_fixed_point v 1 15 ≤ 65535 := by
  have e1 : pymin (.fin v) (.fin (1 - 1 / 2 ^ 15)) =
      .fin (min v (1 - 1 / 2 ^ 15)) := by
    simp only [pymin, F64.lt, decide_eq_true_eq]
    split_ifs with h
    · rw [min_eq_right h.le]
    · rw [min_eq_left (not_lt.mp h)]
  have e2 : ∀ a : ℚ, pymax (.fin a) (.fin (-1)) = .fin (max a (-1)) := by
    intro a
    simp only [pymax, F64.lt, decide_eq_true_eq]
    split_ifs with h
    · rw [max_eq_right h.le]
    · rw [max_eq_left (not_lt.mp h)]
  refine ⟨?_, ?_⟩
  · unfold float_to_fixed_pointF
    rw [e1, e2]
    simp [F64.mulPow2, pyInt, float_to_fixed_point]
  · unfold float_to_fixed_point
    set c := max (min v (1 - 1 / 2 ^ 15)) (-1) with hc
    have hcl : (-1 : ℚ) ≤ c := le_max_right _ _
    have hcu : c ≤ 1 - 1 / 2 ^ 15 :=
      max_le (min_le_right _ _) (by norm_num)
    have h1 : -32768 ≤ truncQ (c * 2 ^ 15) :=
      le_truncQ_of_le (by push_cast; nlinarith)
    have h2 : truncQ (c * 2 ^ 15) ≤ 32767 :=
      truncQ_le_of_le (by push_cast; nlinarith)
    have hp : (2 : ℤ) ^ (1 + 15) = 65536 := by norm_num
    simp only [hp]
    constructor <;> split_ifs <;> omega

/-! ### C10: non-finite inputs -/

/-- C10: the clamp absorbs infinities (`+inf ↦ 0x7FFF`, `-inf ↦ 0x8000`)
but NaN passes through `max`/`min` unchanged and `int()` then raises,
modelled as `none`. -/
theorem nonfinite_quantizer_behavior :
    float_to_fixed_pointF .posInf 1 15 = some 0x7FFF
    ∧ float_to_fixed_pointF .negInf 1 15 = some 0x8000
    ∧ float_to_fixed_pointF .nan 1 15 = none := by
  refine ⟨?_, ?_, rfl⟩
  · have h3 : truncQ ((1 - 1 / 2 ^ 15 : ℚ) * 2 ^ 15) = 32767 :=
      truncQ_eq_of_nonneg (by norm_num) (by norm_num) (by norm_num)
    simp only [float_to_fixed_pointF, pymin, pymax, F64.lt, F64.mulPow2,
      pyInt, if_true, Bool.false_eq_true, if_false,
      (by norm_num : ¬ (1 - 1 / 2 ^ 15 : ℚ) < -1), decide_eq_true_eq,
      if_neg (by norm_num : ¬ (1 - 1 / 2 ^ 15 : ℚ) < -1)]
    rw [h3]
    norm_num
  · have h3 : truncQ ((-1 : ℚ) * 2 ^ 15) = -32768 :=
      truncQ_eq_of_neg (by norm_num) (by norm_num) (by norm_num)
    simp only [float_to_fixed_pointF, pymin, pymax, F64.lt, F64.mulPow2,
      pyInt, if_true, Bool.false_eq_true, if_false]
    rw [h3]
    norm_num

/-! ### C7: the two quantization call sites disagree -/

/-- C7: the truncating quantizer of `convert_weights_to_coe.py` and the
round-to-nearest quantizer of `train_network.py` produce different 16-bit
words on the in-range input `3 / 65536` (whose scaled value `1.5` truncates
to `1` but rounds to `2`), so the two embeddings are not equal. -/
theorem quantizer_policies_diverge :
    float_to_fixed_point (3 / 65536) 1 15 % 65536 = 1
    ∧ save_weights_word (3 / 65536) = 2
    ∧ ∃ v : ℚ, -1 ≤ v ∧ v ≤ 1 - 1 / 2 ^ 15 ∧
        float_to_fixed_point v 1 15 % 65536 ≠ save_weights_word v := by
  have ht : float_to_fixed_point (3 / 65536) 1 15 = 1 := by
    rw [f2fp_in_range _ (by norm_num) (by norm_num)]
    rw [truncQ_eq_of_nonneg (n := 1) (by norm_num) (by norm_num) (by norm_num)]
    norm_num
  have hr : save_weights_word (3 / 65536) = 2 := by
    unfold save_weights_word
    rw [min_eq_left (by unfold clipUpper; norm_num), max_eq_left (by norm_num)]
    have h32 : (3 / 65536 : ℚ) * 32768 = 3 / 2 := by norm_num
    have hfl : ⌊(3 / 2 : ℚ)⌋ = 1 := by
      rw [Int.floor_eq_iff]
      norm_num
    simp only [h32, roundHalfEven, hfl]
    norm_num
  refine ⟨by rw [ht]; decide, hr, ⟨3 / 65536, by norm_num, by norm_num, ?_⟩⟩
  rw [ht, hr]
  decide

/-! ### Helper lemmas about hex tokens and joined writes -/

lemma hexDigitChar_spec (n : ℕ) (h : n < 16) :
    isHexLower (hexDigitChar n) = true
    ∧ hexDigitChar n ≠ ',' ∧ hexDigitChar n ≠ '\n' := by
  interval_cases n <;> exact ⟨by decide, by decide, by decide⟩

lemma hex4_chars (x : ℤ) :
    ∀ c ∈ (hex4 x).data, isHexLower c = true ∧ c ≠ ',' ∧ c ≠ '\n' := by
  intro c hc
  have hm : ∀ m : ℕ, m % 16 < 16 := fun m => Nat.mod_lt _ (by norm_num)
  simp only [hex4, List.mem_cons, List.mem_singleton] at hc
  rcases hc with h1 | h1 | h1 | h1 | h1 <;> first
    | (subst h1; exact hexDigitChar_spec _ (hm _))
    | exact absurd h1 (by simp)

lemma hex2_chars (p : ℕ) :
    ∀ c ∈ (hex2 p).data, isHexLower c = true ∧ c ≠ ',' ∧ c ≠ '\n' := by
  intro c hc
  have hm : ∀ m : ℕ, m % 16 < 16 := fun m => Nat.mod_lt _ (by norm_num)
  simp only [hex2, List.mem_cons, List.mem_singleton] at hc
  rcases hc with h1 | h1 | h1 <;> first
    | (subst h1; exact hexDigitChar_spec _ (hm _))
    | exact absurd h1 (by simp)

lemma strJoin_append (l₁ l₂ : List String) :
    strJoin (l₁ ++ l₂) = strJoin l₁ ++ strJoin l₂ := by
  induction l₁ with
  | nil => simp [strJoin]
  | cons s rest ih => simp [strJoin, ih, String.append_assoc]

lemma data_strJoin (l : List String) :
    (strJoin l).data = (l.map String.data).flatten := by
  induction l with
  | nil => rfl
  | cons s rest ih => simp [strJoin, ih]

/-! ### Helper lemmas about `List.enumFrom` -/

lemma enumFrom_concat {α : Type} (l : List α) (a : α) (n : ℕ) :
    (l ++ [a]).enumFrom n = l.enumFrom n ++ [(n + l.length, a)] := by
  induction l generalizing n with
  | nil => simp [List.enumFrom]
  | cons x xs ih =>
    have hidx : n + 1 + xs.length = n + (xs.length + 1) := by omega
    simp only [List.cons_append, List.enumFrom, List.append_eq, ih (n + 1),
      List.length_cons, hidx]

lemma enumFrom_map_snd {α β : Type} (f : α → β) (l : List α) (n : ℕ) :
    (l.enumFrom n).map (fun p => f p.2) = l.map f := by
  induction l generalizing n with
  | nil => rfl
  | cons x xs ih => simp [List.enumFrom, ih]

lemma enumFrom_map_congr_lt {α β : Type} (l : List α) (n N : ℕ)
    (hN : n + l.length ≤ N) (f g : ℕ × α → β)
    (hfg : ∀ p : ℕ × α, p.1 < N → f p = g p) :
    (l.enumFrom n).map f = (l.enumFrom n).map g := by
  induction l generalizing n with
  | nil => rfl
  | cons x xs ih =>
    simp only [List.enumFrom, List.map_cons]
    rw [hfg (n, x) (by simp only [List.length_cons] at hN; omega),
      ih (n + 1) (by simp only [List.length_cons] at hN; omega)]

/-- Decomposition of a non-empty COE artifact: all but the last weight give
comma lines, the last gives the terminator line. -/
lemma generate_coe_concat (ws : List ℚ) (w : ℚ) :
    generate_coe_file (ws ++ [w]) 1 15 =
      "memory_initialization_radix=16;\n" ++
      "memory_initialization_vector=\n" ++
      strJoin (ws.map (fun v => coeToken v ++ ",\n")) ++
      (coeToken w ++ ";\n") := by
  unfold generate_coe_file
  have hlen : (ws ++ [w]).length - 1 = ws.length := by simp
  have henum : (ws ++ [w]).enum = ws.enumFrom 0 ++ [(ws.length, w)] := by
    have := enumFrom_concat ws w 0
    simpa [List.enum] using this
  rw [henum, List.map_append, strJoin_append, hlen]
  have hlast : [((ws.length, w) : ℕ × ℚ)].map (fun p =>
      if p.1 < ws.length then hex4 (float_to_fixed_point p.2 1 15) ++ ",\n"
      else hex4 (float_to_fixed_point p.2 1 15) ++ ";\n") =
      [coeToken w ++ ";\n"] := by
    simp [coeToken]
  have hinit : (ws.enumFrom 0).map (fun p =>
      if p.1 < ws.length then hex4 (float_to_fixed_point p.2 1 15) ++ ",\n"
      else hex4 (float_to_fixed_point p.2 1 15) ++ ";\n") =
      ws.map (fun v => coeToken v ++ ",\n") := by
    rw [enumFrom_map_congr_lt ws 0 ws.length (by omega) _
      (fun p => hex4 (float_to_fixed_point p.2 1 15) ++ ",\n")
      (fun p hp => by rw [if_pos hp])]
    exact enumFrom_map_snd (fun v => coeToken v ++ ",\n") ws 0
  rw [hlast, hinit]
  simp [strJoin, String.append_assoc]

/-! ### C5, C9: COE artifact layout -/

/-- C5: for every non-empty weight sequence the COE artifact is bit-exact to
the specified layout: the two header lines, then one `"%04x,\n"` line per
weight except the last, then the final token suffixed with `;` and the
(tolerated) trailing newline; every token is four lowercase hex digits. -/
theorem coe_file_layout (ws : List ℚ) (hne : ws ≠ []) :
    generate_coe_file ws 1 15 =
      "memory_initialization_radix=16;\n" ++
      "memory_initialization_vector=\n" ++
      strJoin (((ws.map coeToken).dropLast).map (fun t => t ++ ",\n")) ++
      ((ws.map coeToken).getLastD "" ++ ";" ++ "\n")
    ∧ ∀ t ∈ ws.map coeToken,
        t.length = 4 ∧ ∀ c ∈ t.data, isHexLower c = true := by
  constructor
  · induction ws using List.reverseRecOn with
    | nil => exact absurd rfl hne
    | append_singleton ws' w ih =>
      rw [generate_coe_concat]
      simp only [List.map_append, List.map_cons, List.map_nil,
        List.dropLast_concat, List.map_map]
      have hlastd : ((ws'.map coeToken ++ [coeToken w]).getLastD "") =
          coeToken w := by
        simp [List.getLastD_eq_getLast?, List.getLast?_concat]
      rw [hlastd]
      have hm : (ws'.map ((fun t => t ++ ",\n") ∘ coeToken)) =
          ws'.map (fun v => coeToken v ++ ",\n") := rfl
      rw [hm]
      have hsn : (";" ++ "\n" : String) = ";\n" := by decide
      simp [String.append_assoc, hsn]
  · intro t ht
    rw [List.mem_map] at ht
    obtain ⟨v, _, rfl⟩ := ht
    exact ⟨rfl, fun c hc => (hex4_chars _ c hc).1⟩

/-- C5 witness: the layout equation applied to the singleton sequence `[0]`. -/
theorem coe_file_layout_single :
    generate_coe_file [0] 1 15 =
      "memory_initialization_radix=16;\n" ++
      "memory_initialization_vector=\n" ++
      strJoin ((([(0 : ℚ)].map coeToken).dropLast).map (fun t => t ++ ",\n")) ++
      (([(0 : ℚ)].map coeToken).getLastD "" ++ ";" ++ "\n") :=
  (coe_file_layout [0] (by simp)).1

/-- C9: an empty value sequence produces exactly the two COE header lines
and nothing else, and an empty image produces the empty plain-hex artifact;
neither serializer fails on empty input. -/
theorem empty_input_artifacts :
    generate_coe_file [] 1 15 =
      "memory_initialization_radix=16;\n" ++ "memory_initialization_vector=\n"
    ∧ save_as_hex [] = "" := by
  constructor
  · simp [generate_coe_file, strJoin, List.enum]
  · rfl

/-! ### C6: plain-hex layout -/

lemma save_as_hex_flatten (img : List (List ℕ)) :
    save_as_hex img = strJoin (img.flatten.map (fun p => hex2 p ++ "\n")) := by
  induction img with
  | nil => rfl
  | cons row rest ih =>
    simp only [save_as_hex, List.map_cons, strJoin, List.flatten_cons,
      List.map_append, strJoin_append]
    rw [← ih]
    rfl

lemma range_map_getD {α β : Type} (l : List α) (d : α) (f : α → β) :
    (List.range l.length).map (fun i => f (l.getD i d)) = l.map f := by
  induction l with
  | nil => rfl
  | cons x xs ih =>
    rw [List.length_cons, List.range_succ_eq_map, List.map_cons, List.map_map]
    have h2 : (List.range xs.length).map
        ((fun i => f ((x :: xs).getD i d)) ∘ Nat.succ) = xs.map f :=
      (List.map_congr_left (fun i _ => rfl)).trans ih
    rw [h2]
    rfl

lemma convert_eq_save (img : List (List ℕ)) (h w : ℕ) (hh : img.length = h)
    (hw : ∀ row ∈ img, row.length = w) :
    convert_image_to_hex img h w = save_as_hex img := by
  subst hh
  unfold convert_image_to_hex save_as_hex
  rw [range_map_getD img []
    (fun row => strJoin ((List.range w).map
      (fun x => hex2 (row.getD x 0) ++ "\n")))]
  congr 1
  refine List.map_congr_left (fun row hrow => ?_)
  rw [← hw row hrow]
  rw [range_map_getD row 0 (fun p => hex2 p ++ "\n")]

/-- C6: plain-hex serialization writes one `"%02x\n"` line per pixel in
row-major order, tokens are two lowercase hex digits, the artifact for the
pixel sequence `[0, 255, 16]` is exactly `"00\nff\n10\n"`, and the indexed
write loop of `convert_image_to_hex` produces the same bytes as
`save_as_hex` on any well-shaped image. -/
theorem plain_hex_layout :
    (∀ img : List (List ℕ),
      save_as_hex img = strJoin (img.flatten.map (fun p => hex2 p ++ "\n")))
    ∧ (∀ p : ℕ, (hex2 p).length = 2 ∧ ∀ c ∈ (hex2 p).data, isHexLower c = true)
    ∧ save_as_hex [[0, 255, 16]] = "00\nff\n10\n"
    ∧ ∀ (img : List (List ℕ)) (h w : ℕ), img.length = h →
        (∀ row ∈ img, row.length = w) →
        convert_image_to_hex img h w = save_as_hex img := by
  refine ⟨save_as_hex_flatten, ?_, ?_, ?_⟩
  · exact fun p => ⟨rfl, fun c hc => (hex2_chars p c hc).1⟩
  · decide
  · exact fun img h w hh hw => convert_eq_save img h w hh hw

/-- C6 witness: the shape hypotheses of the last conjunct discharged on the
one-row image `[[0, 255, 16]]`, together with the concrete artifact. -/
theorem plain_hex_layout_row :
    convert_image_to_hex [[0, 255, 16]] 1 3 = save_as_hex [[0, 255, 16]]
    ∧ save_as_hex [[0, 255, 16]] = "00\nff\n10\n" :=
  ⟨plain_hex_layout.2.2.2 [[0, 255, 16]] 1 3 rfl (by decide),
   plain_hex_layout.2.2.1⟩

/-! ### Parsing lemmas for the COE/plain-hex round trip -/

lemma dropLine_through (xs ys : List Char) (h : '\n' ∉ xs) :
    dropLine (xs ++ '\n' :: ys) = ys := by
  induction xs with
  | nil => simp [dropLine]
  | cons c rest ih =>
    have hc : c ≠ '\n' := fun hcc => h (hcc ▸ List.mem_cons_self c rest)
    simp only [List.cons_append, dropLine]
    rw [if_neg hc]
    exact ih (fun hm => h (List.mem_cons_of_mem _ hm))

lemma stripTerm_concat (cs : List Char) :
    stripTerm (cs ++ [';', '\n']) = cs := by
  have h1 : cs ++ [';', '\n'] = (cs ++ [';']) ++ ['\n'] := by simp
  rw [h1]
  simp [stripTerm, List.getLast?_concat, List.dropLast_concat]

lemma splitCommaNl_no_sep (t : List Char) (h : ',' ∉ t) :
    splitCommaNl t = [t] := by
  induction t with
  | nil => rfl
  | cons c rest ih =>
    have hc : c ≠ ',' := fun hcc => h (hcc ▸ List.mem_cons_self c rest)
    have hih := ih (fun hm => h (List.mem_cons_of_mem _ hm))
    cases rest with
    | nil => rfl
    | cons d rest' =>
      rw [splitCommaNl.eq_3,
        if_neg (show ¬(c = ',' ∧ d = '\n') from fun hcd => hc hcd.1), hih]

lemma splitCommaNl_append (t rest : List Char) (h : ',' ∉ t) :
    splitCommaNl (t ++ ',' :: '\n' :: rest) = t :: splitCommaNl rest := by
  induction t with
  | nil =>
    rw [List.nil_append, splitCommaNl.eq_3, if_pos ⟨rfl, rfl⟩]
  | cons c t' ih =>
    have hc : c ≠ ',' := fun hcc => h (hcc ▸ List.mem_cons_self c t')
    have hih := ih (fun hm => h (List.mem_cons_of_mem _ hm))
    cases t' with
    | nil =>
      simp only [List.nil_append] at hih
      rw [List.cons_append, List.nil_append, splitCommaNl.eq_3,
        if_neg (show ¬(c = ',' ∧ ',' = '\n') from fun hcd => hc hcd.1), hih]
    | cons e t'' =>
      simp only [List.cons_append] at hih
      rw [List.cons_append, List.cons_append, splitCommaNl.eq_3,
        if_neg (show ¬(c = ',' ∧ e = '\n') from fun hcd => hc hcd.1), hih]

lemma splitCommaNl_join_tokens (ts : List (List Char)) (tl : List Char)
    (h : ∀ t ∈ ts, ',' ∉ t) (hl : ',' ∉ tl) :
    splitCommaNl ((ts.map (fun t => t ++ [',', '\n'])).flatten ++ tl) =
      ts ++ [tl] := by
  induction ts with
  | nil => simpa using splitCommaNl_no_sep tl hl
  | cons t ts' ih =>
    simp only [List.map_cons, List.flatten_cons, List.append_assoc,
      List.cons_append, List.nil_append]
    rw [splitCommaNl_append _ _ (h t (List.mem_cons_self t ts')),
      ih (fun u hu => h u (List.mem_cons_of_mem _ hu))]

lemma splitNl_append (t rest : List Char) (h : '\n' ∉ t) :
    splitNl (t ++ '\n' :: rest) = t :: splitNl rest := by
  induction t with
  | nil =>
    rw [List.nil_append, splitNl.eq_2, if_pos rfl]
  | cons c t' ih =>
    have hc : c ≠ '\n' := fun hcc => h (hcc ▸ List.mem_cons_self c t')
    have hih := ih (fun hm => h (List.mem_cons_of_mem _ hm))
    rw [List.cons_append, splitNl.eq_2, if_neg hc, hih]

lemma splitNl_join_tokens (ts : List (List Char)) (h : ∀ t ∈ ts, '\n' ∉ t) :
    splitNl ((ts.map (fun t => t ++ ['\n'])).flatten) = ts ++ [[]] := by
  induction ts with
  | nil => rfl
  | cons t ts' ih =>
    simp only [List.map_cons, List.flatten_cons, List.append_assoc,
      List.cons_append, List.nil_append]
    rw [splitNl_append _ _ (h t (List.mem_cons_self t ts')),
      ih (fun u hu => h u (List.mem_cons_of_mem _ hu))]

lemma mk_data_eq (s : String) : String.mk s.data = s := rfl

lemma coeToken_no_comma (v : ℚ) : ',' ∉ (coeToken v).data :=
  fun hm => ((hex4_chars _ _ hm).2.1) rfl

lemma hex2_no_newline (p : ℕ) : '\n' ∉ (hex2 p).data :=
  fun hm => ((hex2_chars _ _ hm).2.2) rfl

/-! ### C8: order preservation and round trip -/

/-- C8: the token sequence recovered from the artifacts equals the hex
encodings of the inputs in input order for both formats, and the COE parse
(drop the two header lines, strip the trailing terminator, split on `",\n"`)
recovers exactly the emitted token sequence. -/
theorem serialization_order_and_roundtrip (ws : List ℚ) (hne : ws ≠ []) :
    coeParse (generate_coe_file ws 1 15) = ws.map coeToken
    ∧ ∀ img : List (List ℕ),
        (splitNl (save_as_hex img).data).map (fun cs => String.mk cs) =
          img.flatten.map hex2 ++ [""] := by
  constructor
  · induction ws using List.reverseRecOn with
    | nil => exact absurd rfl hne
    | append_singleton ws' w ih =>
      clear ih hne
      have hcomma : (",\n" : String).data = [',', '\n'] := rfl
      have hsemi : (";\n" : String).data = [';', '\n'] := rfl
      have hh1 : ("memory_initialization_radix=16;\n" : String).data =
          "memory_initialization_radix=16;".data ++ ['\n'] := by decide
      have hh2 : ("memory_initialization_vector=\n" : String).data =
          "memory_initialization_vector=".data ++ ['\n'] := by decide
      have hdata : (generate_coe_file (ws' ++ [w]) 1 15).data =
          "memory_initialization_radix=16;".data ++ '\n' ::
            ("memory_initialization_vector=".data ++ '\n' ::
              ((((ws'.map (fun v => (coeToken v).data)).map
                  (fun t => t ++ [',', '\n'])).flatten ++ (coeToken w).data)
                ++ [';', '\n'])) := by
        rw [generate_coe_concat]
        simp [String.data_append, data_strJoin, List.map_map,
          Function.comp_def, hcomma, hsemi, hh1, hh2]
      unfold coeParse
      rw [hdata]
      rw [dropLine_through _ _ (by decide), dropLine_through _ _ (by decide)]
      rw [stripTerm_concat]
      rw [splitCommaNl_join_tokens _ _
        (fun t ht => by
          rw [List.mem_map] at ht
          obtain ⟨v, _, rfl⟩ := ht
          exact coeToken_no_comma v)
        (coeToken_no_comma w)]
      simp [List.map_map, Function.comp, mk_data_eq]
  · intro img
    rw [save_as_hex_flatten img]
    have hnl : ("\n" : String).data = ['\n'] := rfl
    have hdata : (strJoin (img.flatten.map (fun p => hex2 p ++ "\n"))).data =
        ((img.flatten.map (fun p => (hex2 p).data)).map
          (fun t => t ++ ['\n'])).flatten := by
      simp [data_strJoin, List.map_map, Function.comp_def,
        String.data_append, hnl]
    rw [hdata]
    rw [splitNl_join_tokens _
      (fun t ht => by
        rw [List.mem_map] at ht
        obtain ⟨p, _, rfl⟩ := ht
        exact hex2_no_newline p)]
    simp [List.map_map, Function.comp, mk_data_eq]
    rfl

/-- C8 witness: the round trip on the singleton weight sequence `[0]` and
the order of plain-hex tokens on the one-pixel image `[[7]]`. -/
theorem serialization_roundtrip_single :
    coeParse (generate_coe_file [0] 1 15) = [(0 : ℚ)].map coeToken
    ∧ (splitNl (save_as_hex [[7]]).data).map (fun cs => String.mk cs) =
        [[7]].flatten.map hex2 ++ [""] :=
  ⟨(serialization_order_and_roundtrip [0] (by simp)).1,
   (serialization_order_and_roundtrip [0] (by simp)).2 [[7]]⟩
